import Mathlib

set_option maxRecDepth 10000

set_option maxHeartbeats 2000000

/-!
Verification development for the LLM-HTML-Translator repository.

Strings are modelled as lists of characters (type Str below); Python string
slicing, find/rfind, strip and split are given explicit executable models.
The tokenizer, validator, chunk adjuster, repetition detector and leak
detector are shallow embeddings of the functions of the same names in
src/html_processor.py, src/utils.py and src/translator.py.
-/

abbrev Str := List Char

def lchars (s : String) : Str := s.toList

/-- Python whitespace test for the ASCII whitespace characters
(space, tab, newline, carriage return, vertical tab, form feed),
as used by str.strip, str.split and the regex class backslash-s. -/
def pyIsSpace (c : Char) : Bool :=
  c = ' ' || c = '\t' || c = '\n' || c = '\r' || c = '\x0b' || c = '\x0c'

def hasNonSpace (s : Str) : Bool := s.any (fun c => !(pyIsSpace c))

/-- Splits a list into its maximal prefix of characters satisfying p
and the remainder (first half of a Python greedy character-class match). -/
def splitRun (p : Char → Bool) : Str → Str × Str
  | [] => ([], [])
  | c :: cs =>
    if p c then
      let pr := splitRun p cs
      (c :: pr.1, pr.2)
    else ([], c :: cs)

/-- Greedy match of the regex alternative for a tag: given the characters
after an opening angle bracket, matches at least one non-closing character
followed by the closing angle bracket (pattern <[^>]+> of
extract_html_structure, src/html_processor.py line 23).
Returns the whole matched token (including both brackets) and the rest. -/
def notGtChar (c : Char) : Bool := c ≠ '>'

def notLtChar (c : Char) : Bool := c ≠ '<'

def tagMatch (rest : Str) : Option (Str × Str) :=
  if (splitRun notGtChar rest).1 = [] then none
  else if (splitRun notGtChar rest).2 = [] then none
  else some ('<' :: (splitRun notGtChar rest).1 ++ ['>'], (splitRun notGtChar rest).2.tail)

/-- The scanning loop of re.finditer with the pattern from
extract_html_structure: at each position, either a tag token,
or a maximal run of non-angle-bracket characters; an unmatched opening
angle bracket is skipped. Returns the list of raw matches in order.
Recursion is driven by a fuel argument so that the definition is
structural (and hence evaluable by the kernel); every step consumes at
least one character, so fuel equal to the input length is always enough
(pyScanF_irrel below), and the wrapper pyScan supplies exactly that. -/
def pyScanF : Nat → Str → List Str
  | _, [] => []
  | 0, _ :: _ => []
  | fuel + 1, c :: rest =>
    if c = '<' then
      match tagMatch rest with
      | some (tok, r) => tok :: pyScanF fuel r
      | none => pyScanF fuel rest
    else
      (c :: (splitRun notLtChar rest).1) :: pyScanF fuel (splitRun notLtChar rest).2

def pyScan (s : Str) : List Str := pyScanF s.length s

/-- A structure token: the matched text and whether it is an HTML tag
(text starts with an opening and ends with a closing angle bracket),
per src/html_processor.py line 28. The end position recorded by the
source is not needed by any claim and is omitted. -/
structure Tok where
  text : Str
  isTag : Bool
deriving Repr, DecidableEq

/-- Python startswith-and-endswith test used at
src/html_processor.py line 28 to classify a token as a tag. -/
def pyIsTagStr (s : Str) : Bool := s.head? = some '<' && s.getLast? = some '>'

/-- Embedding of extract_html_structure (src/html_processor.py lines 17-29):
scan all regex matches and keep those whose strip is non-empty,
recording the tag flag. -/
def extract_html_structure (content : Str) : List Tok :=
  (pyScan content).filterMap
    (fun item => if hasNonSpace item then some ⟨item, pyIsTagStr item⟩ else none)

/-- Every opening angle bracket in the input begins a well-formed tag:
the precondition under which the tokenizer drops no non-whitespace
character (the scan of pyScanF never skips an unmatched bracket).
Fueled like pyScanF. -/
def goodAnglesF : Nat → Str → Bool
  | _, [] => true
  | 0, _ :: _ => true
  | fuel + 1, c :: rest =>
    if c = '<' then
      match tagMatch rest with
      | some (_, r) => goodAnglesF fuel r
      | none => false
    else goodAnglesF fuel rest

def goodAngles (s : Str) : Bool := goodAnglesF s.length s

/-- Python lstrip with the default whitespace set. -/
def pyLstrip (s : Str) : Str := s.dropWhile pyIsSpace

/-- Does sub occur in s starting at index i (Python substring test). -/
def strMatchAt (s sub : Str) (i : Nat) : Bool :=
  decide (i + sub.length ≤ s.length) && decide ((s.drop i).take sub.length = sub)

/-- Python str.rfind with no bounds: highest index at which sub occurs,
or -1 when absent. -/
def pyRfind (s sub : Str) : Int :=
  match ((List.range (s.length + 1)).filter (fun i => strMatchAt s sub i)).getLast? with
  | some i => (i : Int)
  | none => -1

/-- Normalizes a Python slice index (possibly negative) against a length. -/
def pyIdx (i : Int) (n : Nat) : Nat :=
  if 0 ≤ i then min i.toNat n else n - min n (-i).toNat

/-- Python slice s[i:] with a possibly negative index. -/
def pyDropI (i : Int) (s : Str) : Str := s.drop (pyIdx i s.length)

/-- Python slice s[:i] with a possibly negative index. -/
def pyTakeI (i : Int) (s : Str) : Str := s.take (pyIdx i s.length)

/-- Embedding of truncate_str (src/utils.py lines 20-22): strings longer
than twice the budget keep their first and last budget-many characters
around an ellipsis. -/
def truncate_str (s : Str) (length : Nat) : Str :=
  if length * 2 < s.length then s.take length ++ lchars ("...") ++ s.drop (s.length - length) else s

/-- First field of re.split on whitespace-or-closing-bracket, i.e. the tag
name prefix compared by the validator (src/html_processor.py lines 50-51). -/
def tagNameOf (s : Str) : Str := s.takeWhile (fun c => !(pyIsSpace c || c = '>'))

/-- The mismatch test of src/html_processor.py lines 50-51: tag flags differ,
or both are tags with different tag-name prefixes. -/
def mismatchCheck (og tr : Tok) : Bool :=
  (og.isTag != tr.isTag) || (og.isTag && (tagNameOf og.text != tagNameOf tr.text))

/-- Python list slice l[a:b] for natural bounds. -/
def pySliceList {α : Type} (l : List α) (a b : Nat) : List α := (l.take b).drop a

/-- Payload of the Structure Mismatch error raised by
validate_html_structure (src/html_processor.py lines 55-64): the consumed
ratio, the two conflicting tokens, and the two bounded diagnostic context
windows. Ratios are modelled in the rationals. -/
structure Mismatch where
  ratio : ℚ
  origTok : Tok
  transTok : Tok
  originalContext : Str
  translatedContext : Str
deriving Repr, DecidableEq

/-- Result of a call to validate_html_structure: a normal return
(new position and leftover), the raised Structure Mismatch ValueError, or
one of the three unhandled runtime failures the source can hit
(division by zero at line 57, list index -1 on an empty token list at
line 67, unbound loop variable at line 71). -/
inductive ValRes where
  | ok : Nat → Str → ValRes
  | mismatch : Mismatch → ValRes
  | zeroDivisionError : ValRes
  | indexError : ValRes
  | nameError : ValRes
deriving Repr, DecidableEq

/-- Total length of the first k token texts, the numerator term of the
consumed-ratio formula (src/html_processor.py line 56). -/
def sumTokLens (ts : List Tok) (k : Nat) : Nat :=
  (((ts.take k).map (fun t => t.text.length)).sum)

/-- Builds the raised error of src/html_processor.py lines 55-64: ratio
min(1, (consumed - leftover)/increment + 0.05) and the two context windows
of at most four preceding tokens plus the mismatching one, each token
truncated by truncate_str with budget 50. Raises ZeroDivisionError instead
when the increment is empty. -/
def mkMismatch (origs ts : List Tok) (tc lo : Str) (sp i : Nat) (og tr : Tok) : ValRes :=
  if tc.length = 0 then ValRes.zeroDivisionError
  else ValRes.mismatch
    { ratio := min 1 ((((sumTokLens ts (i+1) : ℚ)) - ((lo.length : ℚ))) / ((tc.length : ℚ)) + 1/20)
      origTok := og
      transTok := tr
      originalContext :=
        ((pySliceList origs (sp + (i - 4)) (sp + i + 1)).map (fun t => truncate_str t.text 50)).flatten
      translatedContext :=
        ((pySliceList ts (i - 4) (i + 1)).map (fun t => truncate_str t.text 50)).flatten }

/-- Second-to-last token of the translated structure
(translated_structure[-2] at src/html_processor.py line 45); only
evaluated under the guard that at least two tokens exist. -/
def tsPenult (ts : List Tok) : Tok := ts.getD (ts.length - 2) (Tok.mk [] false)

/-- The comparison loop of validate_html_structure
(src/html_processor.py lines 39-64) over the zipped pairs of skeleton
tokens from the start position and freshly tokenized increment tokens,
carrying the loop index and the mutable leftover. Returns the raised
error or the final leftover value. -/
def valLo2 (ts : List Tok) (tc lo : Str) (lastText : Bool) : Str :=
  if lastText then
    if ts.length = 1 then lo ++ tc
    else pyDropI (pyRfind tc (tsPenult ts).text + (((tsPenult ts).text.length : Int))) tc
  else lo

def valGo (origs ts : List Tok) (tc : Str) (sp : Nat) :
    List (Tok × Tok) → Nat → Str → ValRes ⊕ Str
  | [], _, lo => Sum.inr lo
  | (og, tr) :: rest, i, lo =>
    let lastText : Bool := decide (i = ts.length - 1) && !tr.isTag
    let lo2 : Str := valLo2 ts tc lo lastText
    let contFlag : Bool :=
      lastText && !(decide (ts.length = 1)) && decide ((pyLstrip lo2).head? = some '<')
    if contFlag then valGo origs ts tc sp rest (i+1) lo2
    else if mismatchCheck og tr then Sum.inl (mkMismatch origs ts tc lo2 sp i og tr)
    else valGo origs ts tc sp rest (i+1) lo2

/-- Embedding of validate_html_structure (src/html_processor.py lines
31-76): tokenize leftover plus increment, run the comparison loop, then
reproduce the source epilogue: an empty token list hits
translated_structure[-1] and raises IndexError (line 67); a loop that
never ran leaves the log statement of line 71 with unbound variables and
raises NameError; otherwise the new position is start plus the token
count, minus one with the leftover kept when the final token is not a
tag. -/
def validate_html_structure (origs : List Tok) (tc : Str) (sp : Nat) (lo : Str) : ValRes :=
  let ts := extract_html_structure (lo ++ tc)
  let pairs := (origs.drop sp).zip ts
  match valGo origs ts tc sp pairs 0 lo with
  | Sum.inl r => r
  | Sum.inr lo2 =>
    match ts.getLast? with
    | none => ValRes.indexError
    | some lastT =>
      if pairs.length = 0 then ValRes.nameError
      else if lastT.isTag then ValRes.ok (sp + ts.length) []
      else ValRes.ok (sp + ts.length - 1) lo2

def ratioOf : ValRes → Option ℚ
  | ValRes.mismatch e => some e.ratio
  | _ => none

def transCtxOf : ValRes → Option Str
  | ValRes.mismatch e => some e.translatedContext
  | _ => none

def transTokOf : ValRes → Option Tok
  | ValRes.mismatch e => some e.transTok
  | _ => none

def origCtxOf : ValRes → Option Str
  | ValRes.mismatch e => some e.originalContext
  | _ => none

/-- A 60-character tag token used to exhibit an untruncated context
window entry. -/
def bigTag : Str := '<' :: (List.replicate 58 'a' ++ ['>'])

/-- Membership test of a character code in one configured range
(start <= ord(char) <= end, src/utils.py line 56). The ranges themselves
live in config.py, which is not part of src/, so they are a parameter. -/
def inRange (r : Nat × Nat) (c : Char) : Bool :=
  decide (r.1 ≤ c.toNat) && decide (c.toNat ≤ r.2)

/-- Inner loop of contains_hebrew (src/utils.py lines 55-59): try every
range against one character, appending the character position once per
matching range, and signal an early return as soon as the accumulator
exceeds 15 entries. -/
def chInner (i : Nat) (c : Char) : List (Nat × Nat) → List Nat → List Nat × Bool
  | [], acc => (acc, false)
  | r :: rest, acc =>
    match inRange r c with
    | false => chInner i c rest acc
    | true =>
      if 15 < (acc ++ [i]).length then (acc ++ [i], true)
      else chInner i c rest (acc ++ [i])

/-- Outer loop of contains_hebrew (src/utils.py lines 54-60) over the
enumerated characters, with the early return. -/
def chOuter (ranges : List (Nat × Nat)) : List (Nat × Char) → List Nat → List Nat
  | [], acc => acc
  | p :: rest, acc =>
    match chInner p.1 p.2 ranges acc with
    | (acc2, true) => acc2
    | (acc2, false) => chOuter ranges rest acc2

/-- Embedding of contains_hebrew (src/utils.py lines 48-60). -/
def contains_hebrew (ranges : List (Nat × Nat)) (text : Str) : List Nat :=
  chOuter ranges text.enum []

/-- Positions contributed by a single enumerated character: one entry per
matching range. -/
def rangeHits (ranges : List (Nat × Nat)) (i : Nat) (c : Char) : List Nat :=
  (ranges.filter (fun r => inRange r c)).map (fun _ => i)

/-- All hit positions of a text, without any cap. -/
def hebrewPositions (ranges : List (Nat × Nat)) (text : Str) : List Nat :=
  (text.enum.map (fun p => rangeHits ranges p.1 p.2)).flatten

/-- Python str.replace: replace all non-overlapping occurrences of pat by
rep, scanning left to right. Fueled like pyScanF; a match consumes the
whole (non-empty) pattern, so fuel equal to the input length suffices. -/
def pyReplaceF : Nat → Str → Str → Str → Str
  | _, [], _, _ => []
  | 0, s, _, _ => s
  | fuel + 1, c :: rest, pat, rep =>
    if pat ≠ [] ∧ pat.isPrefixOf (c :: rest) then
      rep ++ pyReplaceF fuel ((c :: rest).drop pat.length) pat rep
    else c :: pyReplaceF fuel rest pat rep

def pyReplace (s pat rep : Str) : Str := pyReplaceF s.length s pat rep

/-- The scan of re.sub with the tag pattern and empty replacement
(src/utils.py line 29): tag matches are deleted, unmatched characters are
copied. -/
def subRemoveTagsF : Nat → Str → Str
  | _, [] => []
  | 0, s => s
  | fuel + 1, c :: rest =>
    if c = '<' then
      match tagMatch rest with
      | some (_, r) => subRemoveTagsF fuel r
      | none => c :: subRemoveTagsF fuel rest
    else c :: subRemoveTagsF fuel rest

def subRemoveTags (s : Str) : Str := subRemoveTagsF s.length s

/-- Word-class character of the regex class backslash-w, modelled for the
ASCII alphabet (letters, digits, underscore). -/
def pyIsWordChar (c : Char) : Bool := c.isAlpha || c.isDigit || c = '_'

/-- re.sub replacing every character outside backslash-w and backslash-s
by a space (src/utils.py line 29). -/
def nonWordToSpace (s : Str) : Str :=
  s.map (fun c => if pyIsWordChar c || pyIsSpace c then c else ' ')

/-- re.sub collapsing every whitespace run to a single space, fueled. -/
def collapseWSF : Nat → Str → Str
  | _, [] => []
  | 0, s => s
  | fuel + 1, c :: rest =>
    if pyIsSpace c then ' ' :: collapseWSF fuel (splitRun pyIsSpace rest).2
    else c :: collapseWSF fuel rest

/-- Embedding of remove_formatting (src/utils.py lines 14-18): newlines,
tabs and carriage returns become spaces, whitespace runs collapse to one
space, then the three literal replacements around tags. -/
def remove_formatting (s : Str) : Str :=
  let s1 := pyReplace (pyReplace (pyReplace s (lchars ("\n")) (lchars (" ")))
              (lchars ("\t")) (lchars (" "))) (lchars ("\r")) (lchars (" "))
  let s2 := collapseWSF s1.length s1
  let s3 := pyReplace s2 (lchars ("> <")) (lchars ("><"))
  let s4 := pyReplace s3 (lchars (" <br>")) (lchars ("<br>"))
  pyReplace s4 (lchars ("<br> ")) (lchars ("<br>"))

def toLowerS (s : Str) : Str := s.map Char.toLower

/-- Python str.strip with the default whitespace set. -/
def pyStrip (s : Str) : Str :=
  ((s.dropWhile pyIsSpace).reverse.dropWhile pyIsSpace).reverse

/-- Python str.split with no separator: maximal non-whitespace runs. -/
def pySplitWSF : Nat → Str → List Str
  | _, [] => []
  | 0, _ => []
  | fuel + 1, c :: rest =>
    if pyIsSpace c then pySplitWSF fuel rest
    else (c :: (splitRun (fun x => !(pyIsSpace x)) rest).1) ::
      pySplitWSF fuel (splitRun (fun x => !(pyIsSpace x)) rest).2

def pySplitWS (s : Str) : List Str := pySplitWSF s.length s

/-- The word list computed by abnormal_repetitions (src/utils.py lines
29-30): strip entities and tags, blank out punctuation, normalize
formatting, lowercase and strip, then split into words (or single
characters with spaces removed, for scripts without word boundaries). -/
def repetitionWords (text : Str) (asian : Bool) : List Str :=
  let cleaned := nonWordToSpace (subRemoveTags (pyReplace text (lchars ("&nbsp;")) (lchars (" "))))
  let formatted := pyStrip (toLowerS (remove_formatting cleaned))
  if asian then (formatted.filter (fun c => c ≠ ' ')).map (fun c => [c])
  else pySplitWS formatted

/-- Counter keys in first-insertion order (Python dict ordering of
collections.Counter). -/
def counterKeys (l : List Str) : List Str :=
  l.foldl (fun acc w => if w ∈ acc then acc else acc ++ [w]) []

/-- Python range(start, stop, step) for natural arguments, empty when
stop does not exceed start. -/
def pyRangeStep (start stop step : Nat) : List Nat :=
  if stop ≤ start || step = 0 then []
  else List.range' start ((stop - start + step - 1) / step) step

/-- The sliding-window loop of abnormal_repetitions (src/utils.py lines
32-38): for each window start, the words repeated at least the threshold
number of times; return the first window with more than two of them. -/
def repScanLoop (words : List Str) (thr ws : Nat) : List Nat → List Str
  | [] => []
  | i :: rest =>
    let window := (words.drop i).take ws
    let repeated := (counterKeys window).filter (fun w => decide (thr ≤ window.count w))
    if 2 < repeated.length then repeated else repScanLoop words thr ws rest

/-- Embedding of abnormal_repetitions (src/utils.py lines 24-38). The
window starts are the Python range over len(words) - window_size + 1 with
step window_size // 2, which is empty when fewer than window_size words
exist. -/
def abnormal_repetitions (text : Str) (asian : Bool) (ws : Nat) : List Str :=
  let words := repetitionWords text asian
  let thr := if asian then 35 else 20
  let stop := if words.length + 1 ≤ ws then 0 else words.length + 1 - ws
  repScanLoop words thr ws (pyRangeStep 0 stop (ws / 2))

/-- Space-separated text whose words are the given list. -/
def repText (wordList : List Str) : Str := (List.intersperse (lchars (" ")) wordList).flatten

def exWords1 : List Str := List.replicate 25 (lchars ("a")) ++ List.replicate 175 (lchars ("b"))

def exWords2 : List Str := List.replicate 10 (lchars ("a")) ++ List.replicate 190 (lchars ("b"))

def exWords3 : List Str :=
  List.replicate 25 (lchars ("a")) ++ List.replicate 25 (lchars ("b")) ++
    List.replicate 25 (lchars ("c")) ++ List.replicate 125 (lchars ("d"))

/-- A 200-word window in which the word a occurs 25 times and every other
word stays strictly below the detection threshold of 20 (nine letters
repeated 18 times each and one repeated 13 times). -/
def exWordsD : List Str :=
  List.replicate 25 (lchars ("a")) ++
    ((lchars ("bcdefghij")).map (fun c => List.replicate 18 [c])).flatten ++
    List.replicate 13 (lchars ("k"))

/-- Python str.find(sub, a, b): lowest index of sub within the slice
bounds, or -1. -/
def pyFindInRange (s sub : Str) (a b : Nat) : Int :=
  match ((List.range (s.length + 1)).filter
      (fun i => decide (a ≤ i) && decide (i + sub.length ≤ min b s.length) &&
        strMatchAt s sub i)).head? with
  | some i => (i : Int)
  | none => -1

/-- Python str.rfind(sub, start) with a possibly negative start: highest
index of sub at or after the normalized start, or -1. -/
def pyRfindFrom (s sub : Str) (start : Int) : Int :=
  match ((List.range (s.length + 1)).filter
      (fun i => decide (pyIdx start s.length ≤ i) && decide (i + sub.length ≤ s.length) &&
        strMatchAt s sub i)).getLast? with
  | some i => (i : Int)
  | none => -1

/-- One chunk: its stored index and its text
(the two-element lists built at src/translator.py lines 401-404). -/
structure Chunk where
  idx : Nat
  text : Str
deriving Repr, DecidableEq

/-- The separator search of adjust_chunks (src/translator.py lines
350-365): for the first separator that yields a cut, either pull a
lead-in of the next chunk backward or push a trailing piece of the
current chunk forward; all arithmetic over the integers as in Python
(rfind can return -1, and the negative start is a floor division). -/
def sepPhase (seps : List Str) (cur nxt : Str) : Str × Str :=
  match seps with
  | [] => (cur, nxt)
  | sep :: rest =>
    let next_cut : Int := pyFindInRange nxt sep 0 (nxt.length / 7)
    let cut : Int := pyRfindFrom cur sep (Int.fdiv (-((cur.length : Int))) 7)
    if (-1 : Int) < next_cut ∧ next_cut < (cur.length : Int) - cut - 2 * ((sep.length : Int)) then
      let nc := (next_cut + ((sep.length : Int))).toNat
      (cur ++ nxt.take nc, nxt.drop nc)
    else if cut ≠ -1 then
      let cc := (cut + ((sep.length : Int))).toNat
      (cur.take cc, cur.drop cc ++ nxt)
    else sepPhase rest cur nxt

/-- The trailing tag pull of adjust_chunks (src/translator.py lines
368-374): over the tokens of the next chunk as it was at loop entry, move
everything up to and including each leading tag into the current chunk,
stopping at the first non-tag token. -/
def tagGo : Str → Str → List Tok → Str × Str
  | cur, nxt, [] => (cur, nxt)
  | cur, nxt, item :: rest =>
    if item.isTag then
      let ac : Int := pyFindInRange nxt item.text 0 nxt.length + ((item.text.length : Int))
      tagGo (cur ++ pyTakeI ac nxt) (pyDropI ac nxt) rest
    else (cur, nxt)

/-- Boundary adjustment of one adjacent chunk pair: separator phase, then
tag pull over the tokens of the adjusted next chunk. -/
def adjustPair (seps : List Str) (cur nxt : Str) : Str × Str :=
  let p1 := sepPhase seps cur nxt
  tagGo p1.1 p1.2 (extract_html_structure p1.2)

/-- Embedding of the loop of adjust_chunks (src/translator.py lines
346-379): for each chunk except the last, in order, look up the chunk and
its successor chunks[chunk[0]+1] by stored index (IndexError modelled as
none) and splice the adjusted pair back into the list. -/
def adjGo (seps : List Str) : List Nat → List Chunk → Option (List Chunk)
  | [], cs => some cs
  | k :: ks, cs =>
    match cs[k]? with
    | none => none
    | some ch =>
      match cs[ch.idx + 1]? with
      | none => none
      | some nx =>
        adjGo seps ks
          ((cs.set k (Chunk.mk ch.idx (adjustPair seps ch.text nx.text).1)).set (ch.idx + 1)
            (Chunk.mk nx.idx (adjustPair seps ch.text nx.text).2))

/-- Embedding of adjust_chunks (src/translator.py lines 339-379). -/
def adjust_chunks (seps : List Str) (cs : List Chunk) : Option (List Chunk) :=
  adjGo seps (List.range (cs.length - 1)) cs

/-- The initial even split of translate_html_file (src/translator.py
lines 399-404): the flattened body cut into chunks_num slices of
chunk_size characters. -/
def chunksInit (tc : Str) (maxSize : Nat) : List Chunk :=
  (List.range (tc.length / maxSize + 1)).map
    (fun i => Chunk.mk i ((tc.take ((i+1) * (tc.length / (tc.length / maxSize + 1) + 1))).drop
      (i * (tc.length / (tc.length / maxSize + 1) + 1))))

def joinChunks (cs : List Chunk) : Str := (cs.map Chunk.text).flatten

/-- File-system operations relevant to the checkpoint save: rename,
open-for-write (which truncates the target, leaving it observable in a
half-written state), and write completion. -/
inductive FsOp where
  | renameOp : String → String → FsOp
  | beginWrite : String → FsOp
  | endWrite : String → String → FsOp
deriving Repr, DecidableEq

inductive FileState where
  | absent : FileState
  | halfWritten : FileState
  | full : String → FileState
deriving Repr, DecidableEq

def applyOp (fs : String → FileState) : FsOp → String → FileState
  | FsOp.renameOp src dst => fun p =>
      if p = dst then fs src else if p = src then FileState.absent else fs p
  | FsOp.beginWrite pa => fun p => if p = pa then FileState.halfWritten else fs p
  | FsOp.endWrite pa c => fun p => if p = pa then FileState.full c else fs p

def applyOps (fs : String → FileState) (ops : List FsOp) : String → FileState :=
  ops.foldl applyOp fs

def chkPath : String := "doc.json"

def chkOldPath : String := "doc.json.old"

/-- The checkpoint save of translate_chunk (src/translator.py lines
282-287): when a checkpoint file exists, rename it to the .old path
(retained, not deleted); then open the checkpoint path itself for writing
and dump the new state in place. No side file is written and nothing is
renamed into place. -/
def checkpointOps (hadPrev : Bool) (newData : String) : List FsOp :=
  (if hadPrev then [FsOp.renameOp chkPath chkOldPath] else []) ++
    [FsOp.beginWrite chkPath, FsOp.endWrite chkPath newData]

/-- Initial file system: the last good checkpoint at the checkpoint path. -/
def fs0 (oldData : String) : String → FileState :=
  fun p => if p = chkPath then FileState.full oldData else FileState.absent

inductive PyExc where
  | rateLimitError : PyExc
  | badRequestError : PyExc
  | runtimeErrorE : String → PyExc
  | valueErrorE : String → PyExc
deriving Repr, DecidableEq

inductive GenOutcome where
  | okMsg : GenOutcome
  | rateLimited : GenOutcome
  | badRequest : GenOutcome
  | otherExc : PyExc → GenOutcome
deriving Repr, DecidableEq

/-- Embedding of the error handling of
TranslationAPIClient.create_translation_message (src/api_client.py lines
36-73): RateLimitError and BadRequestError are caught and re-raised as a
RuntimeError whose message is !Stop!; any other exception propagates
unchanged; a normal response is returned. -/
def create_translation_message : GenOutcome → Except PyExc Unit
  | GenOutcome.okMsg => Except.ok ()
  | GenOutcome.rateLimited => Except.error (PyExc.runtimeErrorE ("!Stop!"))
  | GenOutcome.badRequest => Except.error (PyExc.runtimeErrorE ("!Stop!"))
  | GenOutcome.otherExc e => Except.error e

inductive HandlerAction where
  | raiseExc : PyExc → HandlerAction
  | degraded : HandlerAction
  | retry : String → HandlerAction
deriving Repr, DecidableEq

/-- Embedding of the except block of translate_chunk (src/translator.py
lines 297-335): lines 301-304 re-raise as RuntimeError !Stop! when the
caught exception is an instance of the original RateLimitError or
BadRequestError classes; lines 307-323 return the degraded recovery
fragment (recovery enabled and progress exists) or re-raise, on attempt
exhaustion, an empty answer, or a stalled conversation; lines 326-332
build the structure-mismatch warning; otherwise the existing warning is
kept and the attempt loop continues. -/
def handleChunkError (e : PyExc) (attempt maxRetries : Nat) (recovery hasProgress : Bool)
    (warning : String) : HandlerAction :=
  if e = PyExc.rateLimitError ∨ e = PyExc.badRequestError then
    HandlerAction.raiseExc (PyExc.runtimeErrorE ("!Stop!"))
  else if maxRetries - 1 ≤ attempt ∨ e = PyExc.valueErrorE ("Empty Answer") ∨
      e = PyExc.runtimeErrorE ("Stuck in a loop with LLM") then
    (if recovery && hasProgress then HandlerAction.degraded else HandlerAction.raiseExc e)
  else if e = PyExc.valueErrorE ("Structure Mismatch") then
    HandlerAction.retry ("structure mismatch warning")
  else HandlerAction.retry warning

inductive ChunkOutcome where
  | completedC : ChunkOutcome
  | degradedC : ChunkOutcome
  | raisedC : PyExc → ChunkOutcome
  | exhaustedC : ChunkOutcome
deriving Repr, DecidableEq

/-- The attempt loop of translate_chunk (src/translator.py lines 143-335)
at the granularity relevant to run-abort behaviour. Each attempt first
compares the outgoing conversation against the previous one (lines
153-157; on equality RuntimeError Stuck in a loop with LLM is raised
before any API call, and is handled by the same except block); otherwise
the generator is called through create_translation_message and an
exception goes to handleChunkError. Since the prompt and primer are
constant across failed attempts, the conversation is identified with the
warning string. A successful response is abstracted as chunk completion;
the runs relevant to claim C2 never reach it (their generator always
fails). Returns the outcome and the number of generator calls issued. -/
def attemptLoopAux (gen : Nat → GenOutcome) (maxRetries : Nat) (recovery hasProgress : Bool) :
    Nat → Nat → Option String → String → Nat → ChunkOutcome × Nat
  | _, 0, _, _, calls => (ChunkOutcome.exhaustedC, calls)
  | attempt, fuel + 1, prevConv, warning, calls =>
    if prevConv = some warning then
      match handleChunkError (PyExc.runtimeErrorE ("Stuck in a loop with LLM")) attempt
          maxRetries recovery hasProgress warning with
      | HandlerAction.raiseExc e2 => (ChunkOutcome.raisedC e2, calls)
      | HandlerAction.degraded => (ChunkOutcome.degradedC, calls)
      | HandlerAction.retry w2 =>
        attemptLoopAux gen maxRetries recovery hasProgress (attempt + 1) fuel (some warning) w2 calls
    else
      match create_translation_message (gen calls) with
      | Except.ok _ => (ChunkOutcome.completedC, calls + 1)
      | Except.error e =>
        match handleChunkError e attempt maxRetries recovery hasProgress warning with
        | HandlerAction.raiseExc e2 => (ChunkOutcome.raisedC e2, calls + 1)
        | HandlerAction.degraded => (ChunkOutcome.degradedC, calls + 1)
        | HandlerAction.retry w2 =>
          attemptLoopAux gen maxRetries recovery hasProgress (attempt + 1) fuel (some warning) w2
            (calls + 1)

def chunkAttempts (gen : Nat → GenOutcome) (maxRetries : Nat) (recovery hasProgress : Bool) :
    ChunkOutcome × Nat :=
  attemptLoopAux gen maxRetries recovery hasProgress 0 maxRetries none ("") 0

/-- Substring test (Python in-operator on str). -/
def isSub (pat s : Str) : Bool :=
  (List.range (s.length + 1)).any (fun i => (s.drop i).take pat.length = pat)

def excMsg : PyExc → String
  | PyExc.rateLimitError => "rate limit"
  | PyExc.badRequestError => "bad request"
  | PyExc.runtimeErrorE m => m
  | PyExc.valueErrorE m => m

inductive RunReaction where
  | abortsRun : RunReaction
  | continuesRun : RunReaction
deriving Repr, DecidableEq

/-- Embedding of the per-file except handler of translate_website
(src/translator.py lines 579-589): a raised error whose text contains
!Stop! aborts the run; any other chunk outcome - in particular a degraded
fragment, which is returned rather than raised - lets the run continue
with the next file (up to the error-count threshold). -/
def websiteReaction : ChunkOutcome → RunReaction
  | ChunkOutcome.raisedC e =>
    if isSub (lchars ("!Stop!")) (lchars (excMsg e)) then RunReaction.abortsRun
    else RunReaction.continuesRun
  | _ => RunReaction.continuesRun

inductive ChunkEv where
  | apiCall : ChunkEv
  | validatedOk : ChunkEv
  | partialWrite : ChunkEv
  | memUpdate : ChunkEv
  | renameOldCk : ChunkEv
  | jsonWrite : ChunkEv
  | chunkReturn : ChunkEv
deriving Repr, DecidableEq

/-- Events of one iteration of the translation loop of translate_chunk on
a successfully validated increment, in source order (src/translator.py):
the API call (line 177), validation success (line 241), the append to the
partial-output file (lines 257-258), the in-memory saved_data update
(lines 264-272); then, only when the completion test of lines 275-277
passes, the rename of the previous checkpoint file when one exists (lines
283-284), the checkpoint file write (lines 285-287) and the return. -/
def iterEvents (complete hadJson : Bool) : List ChunkEv :=
  [ChunkEv.apiCall, ChunkEv.validatedOk, ChunkEv.partialWrite, ChunkEv.memUpdate] ++
    (if complete then
      (if hadJson then [ChunkEv.renameOldCk] else []) ++
        [ChunkEv.jsonWrite, ChunkEv.chunkReturn]
    else [])

/-- Event trace of a chunk run whose successive validated increments have
the given completion flags; the run returns at the first completing
increment. -/
def chunkEvTrace (hadJson : Bool) : List Bool → List ChunkEv
  | [] => []
  | c :: rest => iterEvents c hadJson ++ (if c then [] else chunkEvTrace hadJson rest)

/-- After a given point of the trace, does a generator call occur before
the next checkpoint-file write? -/
def apiBeforeJson : List ChunkEv → Bool
  | [] => false
  | ChunkEv.apiCall :: _ => true
  | ChunkEv.jsonWrite :: _ => false
  | _ :: r => apiBeforeJson r

/-- True when some validated increment is followed by another generator
request with no checkpoint-file write in between - the negation of the
persist-before-next-request discipline asserted by claim C6. -/
def checkpointClaimViolated : List ChunkEv → Bool
  | [] => false
  | ChunkEv.validatedOk :: r => apiBeforeJson r || checkpointClaimViolated r
  | _ :: r => checkpointClaimViolated r

theorem splitRun_append (p : Char → Bool) : ∀ s : Str, (splitRun p s).1 ++ (splitRun p s).2 = s := by
  intro s
  induction s with
  | nil => simp [splitRun]
  | cons c cs ih =>
    by_cases h : p c
    · simp [splitRun, h, ih]
    · simp [splitRun, h]

theorem splitRun_snd_length (p : Char → Bool) : ∀ s : Str, (splitRun p s).2.length ≤ s.length := by
  intro s
  induction s with
  | nil => simp [splitRun]
  | cons c cs ih =>
    by_cases h : p c
    · simp only [splitRun, h]
      exact le_trans ih (by simp)
    · simp [splitRun, h]

theorem splitRun_fst_all (p : Char → Bool) : ∀ s : Str, ∀ c ∈ (splitRun p s).1, p c := by
  intro s
  induction s with
  | nil => simp [splitRun]
  | cons c cs ih =>
    by_cases h : p c
    · simp only [splitRun, h, if_true]
      intro x hx
      rcases List.mem_cons.1 hx with h1 | h1
      · exact h1 ▸ h
      · exact ih x h1
    · simp [splitRun, h]

theorem splitRun_snd_head (p : Char → Bool) :
    ∀ s : Str, ∀ c cs, (splitRun p s).2 = c :: cs → p c = false := by
  intro s
  induction s with
  | nil => simp [splitRun]
  | cons a as ih =>
    by_cases h : p a
    · simp only [splitRun, h, if_true]
      exact ih
    · simp only [splitRun, h, if_false]
      intro c cs hc
      cases hc
      simpa using h

theorem tagMatch_append : ∀ rest tok r2, tagMatch rest = some (tok, r2) →
    tok ++ r2 = '<' :: rest ∧ 2 ≤ tok.length := by
  intro rest tok r2 h
  unfold tagMatch at h
  by_cases h1 : (splitRun notGtChar rest).1 = []
  · rw [if_pos h1] at h
    cases h
  by_cases h2 : (splitRun notGtChar rest).2 = []
  · rw [if_neg h1, if_pos h2] at h
    cases h
  rw [if_neg h1, if_neg h2] at h
  have happ := splitRun_append notGtChar rest
  rcases hsnd : (splitRun notGtChar rest).2 with _ | ⟨g, t⟩
  · exact absurd hsnd h2
  have hg : notGtChar g = false := splitRun_snd_head _ rest g t hsnd
  have hg2 : g = '>' := by
    by_contra hne
    simp [notGtChar, hne] at hg
  obtain ⟨rfl, rfl⟩ : '<' :: (splitRun notGtChar rest).1 ++ ['>'] = tok ∧
      (splitRun notGtChar rest).2.tail = r2 := by
    injection h with h3
    exact ⟨congrArg Prod.fst h3, congrArg Prod.snd h3⟩
  constructor
  · rw [hsnd] at happ
    rw [hsnd]
    conv_rhs => rw [← happ]
    simp [hg2]
  · rcases hfst : (splitRun notGtChar rest).1 with _ | ⟨b, bs⟩
    · exact absurd hfst h1
    · simp [hfst]

theorem tagMatch_rest_length : ∀ rest tok r2, tagMatch rest = some (tok, r2) → r2.length < rest.length := by
  intro rest tok r2 h
  obtain ⟨h2, h4⟩ := tagMatch_append rest tok r2 h
  have h3 : tok.length + r2.length = rest.length + 1 := by
    have := congrArg List.length h2
    simpa using this
  omega

theorem pyScanF_irrel : ∀ f1 f2 : Nat, ∀ s : Str, s.length ≤ f1 → s.length ≤ f2 →
    pyScanF f1 s = pyScanF f2 s := by
  intro f1
  induction f1 with
  | zero =>
    intro f2 s h1 h2
    have hs : s = [] := List.length_eq_zero.1 (Nat.le_zero.1 h1)
    subst hs
    simp [pyScanF]
  | succ k ih =>
    intro f2 s h1 h2
    cases s with
    | nil => simp [pyScanF]
    | cons c rest =>
      cases f2 with
      | zero => simp at h2
      | succ k2 =>
        have hr : rest.length ≤ k := by simpa using h1
        have hr2 : rest.length ≤ k2 := by simpa using h2
        simp only [pyScanF]
        by_cases hc : c = '<'
        · simp only [hc, if_true]
          cases hm : tagMatch rest with
          | some pr =>
            obtain ⟨tok, r⟩ := pr
            have hlt := tagMatch_rest_length rest tok r hm
            show tok :: pyScanF k r = tok :: pyScanF k2 r
            rw [ih k2 r (by omega) (by omega)]
          | none =>
            exact ih k2 rest hr hr2
        · simp only [hc, if_false]
          have hsp := splitRun_snd_length notLtChar rest
          rw [ih k2 (splitRun notLtChar rest).2 (by omega) (by omega)]

theorem goodAnglesF_irrel : ∀ f1 f2 : Nat, ∀ s : Str, s.length ≤ f1 → s.length ≤ f2 →
    goodAnglesF f1 s = goodAnglesF f2 s := by
  intro f1
  induction f1 with
  | zero =>
    intro f2 s h1 h2
    have hs : s = [] := List.length_eq_zero.1 (Nat.le_zero.1 h1)
    subst hs
    simp [goodAnglesF]
  | succ k ih =>
    intro f2 s h1 h2
    cases s with
    | nil => simp [goodAnglesF]
    | cons c rest =>
      cases f2 with
      | zero => simp at h2
      | succ k2 =>
        have hr : rest.length ≤ k := by simpa using h1
        have hr2 : rest.length ≤ k2 := by simpa using h2
        simp only [goodAnglesF]
        by_cases hc : c = '<'
        · simp only [hc, if_true]
          cases hm : tagMatch rest with
          | some pr =>
            obtain ⟨tok, r⟩ := pr
            have hlt := tagMatch_rest_length rest tok r hm
            show goodAnglesF k r = goodAnglesF k2 r
            exact ih k2 r (by omega) (by omega)
          | none => rfl
        · simp only [hc, if_false]
          exact ih k2 rest hr hr2

theorem filterMap_token_texts (l : List Str) :
    ((l.filterMap (fun item => if hasNonSpace item then some (Tok.mk item (pyIsTagStr item)) else none)).map Tok.text) =
      l.filter hasNonSpace := by
  induction l with
  | nil => simp
  | cons x xs ih =>
    by_cases h : hasNonSpace x
    · simp [List.filterMap_cons, h, ih]
    · simp [List.filterMap_cons, h, ih]

theorem extract_texts (s : Str) :
    (extract_html_structure s).map Tok.text = (pyScan s).filter hasNonSpace := by
  unfold extract_html_structure
  exact filterMap_token_texts (pyScan s)

theorem goodAnglesF_skip : ∀ (a : Str) (fuel : Nat) (b : Str),
    (∀ c ∈ a, notLtChar c = true) → (a ++ b).length ≤ fuel →
    goodAnglesF fuel (a ++ b) = true → goodAnglesF fuel b = true := by
  intro a
  induction a with
  | nil => intro fuel b _ _ h; simpa using h
  | cons c a2 ih =>
    intro fuel b hall hlen h
    cases fuel with
    | zero => simp at hlen
    | succ k =>
      have hc : c ≠ '<' := by
        have := hall c (List.mem_cons_self _ _)
        simpa [notLtChar] using this
      rw [List.cons_append] at h
      simp only [goodAnglesF, hc, if_false] at h
      have hlen2 : (a2 ++ b).length ≤ k := by
        simp at hlen
        simpa using hlen
      have h2 := ih k b (fun x hx => hall x (List.mem_cons_of_mem _ hx)) hlen2 h
      have hb : b.length ≤ k := le_trans (by simp) hlen2
      rw [goodAnglesF_irrel (k+1) k b (le_trans hb (Nat.le_succ _)) hb]
      exact h2

theorem pyScanF_join : ∀ (fuel : Nat) (s : Str), s.length ≤ fuel →
    goodAnglesF fuel s = true → (pyScanF fuel s).flatten = s := by
  intro fuel
  induction fuel with
  | zero =>
    intro s h1 _
    have hs : s = [] := List.length_eq_zero.1 (Nat.le_zero.1 h1)
    subst hs
    simp [pyScanF]
  | succ k ih =>
    intro s h1 hg
    cases s with
    | nil => simp [pyScanF]
    | cons c rest =>
      have hr : rest.length ≤ k := by simpa using h1
      by_cases hc : c = '<'
      · simp only [goodAnglesF, hc, if_true] at hg
        simp only [pyScanF, hc, if_true]
        cases hm : tagMatch rest with
        | some pr =>
          obtain ⟨tok, r⟩ := pr
          rw [hm] at hg
          have hlt := tagMatch_rest_length rest tok r hm
          obtain ⟨happ, _⟩ := tagMatch_append rest tok r hm
          have ihr := ih r (by omega) hg
          show (tok :: pyScanF k r).flatten = '<' :: rest
          simp only [List.flatten_cons, ihr]
          exact happ
        | none =>
          rw [hm] at hg
          cases hg
      · simp only [goodAnglesF, hc, if_false] at hg
        simp only [pyScanF, hc, if_false]
        have happ := splitRun_append notLtChar rest
        have hsp := splitRun_snd_length notLtChar rest
        have hg2 : goodAnglesF k (splitRun notLtChar rest).2 = true := by
          apply goodAnglesF_skip (splitRun notLtChar rest).1 k (splitRun notLtChar rest).2
            (splitRun_fst_all notLtChar rest)
          · rw [happ]; exact hr
          · rw [happ]; exact hg
        have ihr := ih (splitRun notLtChar rest).2 (by omega) hg2
        simp only [List.flatten_cons, ihr]
        rw [List.cons_append, happ]

theorem pyScan_join (s : Str) (h : goodAngles s = true) : (pyScan s).flatten = s :=
  pyScanF_join s.length s (Nat.le_refl _) h

theorem join_filter_sublist (p : Str → Bool) : ∀ l : List Str, ((l.filter p).flatten).Sublist l.flatten := by
  intro l
  induction l with
  | nil => simp
  | cons x xs ih =>
    by_cases h : p x
    · simp only [List.filter_cons, h, if_true, List.flatten_cons]
      exact List.Sublist.append_left ih x
    · simp only [List.filter_cons, h, if_false, List.flatten_cons]
      exact ih.trans (List.sublist_append_right _ _)

theorem filter_join_comm (q : Char → Bool) : ∀ l : List Str,
    (l.flatten).filter q = (l.map (List.filter q)).flatten := by
  intro l
  induction l with
  | nil => simp
  | cons x xs ih => simp [List.filter_append, ih]

theorem ws_only_filter (t : Str) (h : hasNonSpace t = false) :
    t.filter (fun c => !(pyIsSpace c)) = [] := by
  have h2 : ∀ a ∈ t, pyIsSpace a = true := by
    intro a ha
    by_contra hcon
    have h3 : hasNonSpace t = true := by
      unfold hasNonSpace
      rw [List.any_eq_true]
      refine ⟨a, ha, ?_⟩
      simp only [Bool.not_eq_true] at hcon
      simp [hcon]
    rw [h3] at h
    cases h
  rw [List.filter_eq_nil_iff]
  intro a ha
  simp [h2 a ha]

theorem join_filter_nonspace (l : List Str) :
    ((l.filter hasNonSpace).flatten).filter (fun c => !(pyIsSpace c)) =
      (l.flatten).filter (fun c => !(pyIsSpace c)) := by
  rw [filter_join_comm, filter_join_comm]
  induction l with
  | nil => simp
  | cons x xs ih =>
    by_cases h : hasNonSpace x
    · simp only [List.filter_cons, h, if_true, List.map_cons, List.flatten_cons, ih]
    · simp only [List.filter_cons, h, if_false, List.map_cons, List.flatten_cons, ih]
      rw [ws_only_filter x (by simpa using h)]
      simpa using ih

/-- Claim C7 (amended): tokenizer round-trip holds for inputs in which every
opening angle bracket begins a well-formed tag: concatenating the texts of
all tokens of extract_html_structure in order yields a sublist of the input
that retains every non-whitespace character (only whitespace-only gaps are
removed). On inputs with an unmatched opening angle bracket the scanner
also drops that bracket (see the counterexample). -/
theorem C7_round_trip (s : Str) (h : goodAngles s = true) :
    (((extract_html_structure s).map Tok.text).flatten).Sublist s ∧
    (((extract_html_structure s).map Tok.text).flatten).filter (fun c => !(pyIsSpace c)) =
      s.filter (fun c => !(pyIsSpace c)) := by
  have hjoin := pyScan_join s h
  rw [extract_texts]
  constructor
  · have hsub := join_filter_sublist hasNonSpace (pyScan s)
    rw [hjoin] at hsub
    exact hsub
  · rw [join_filter_nonspace, hjoin]

/-- Claim C7 counterexample: on the input a<b the tokenizer drops the
non-whitespace character < (the unmatched opening bracket is skipped by
the regex scan), so the concatenation of token texts is ab and does not
reproduce the input with only whitespace-only gaps removed. -/
theorem C7_counterexample :
    ((extract_html_structure (lchars ("a<b"))).map Tok.text).flatten = lchars ("ab") ∧
    '<' ∈ lchars ("a<b") ∧
    pyIsSpace '<' = false ∧
    '<' ∉ ((extract_html_structure (lchars ("a<b"))).map Tok.text).flatten := by
  refine ⟨by decide, by decide, by decide, by decide⟩

/-- Witness for C7_round_trip at a concrete well-formed input. -/
theorem C7_witness :
    goodAngles (lchars ("<p> hi </p> x")) = true ∧
    ((((extract_html_structure (lchars ("<p> hi </p> x"))).map Tok.text).flatten).Sublist
        (lchars ("<p> hi </p> x")) ∧
      ((((extract_html_structure (lchars ("<p> hi </p> x"))).map Tok.text).flatten).filter
          (fun c => !(pyIsSpace c)) =
        (lchars ("<p> hi </p> x")).filter (fun c => !(pyIsSpace c)))) :=
  ⟨by decide, C7_round_trip (lchars ("<p> hi </p> x")) (by decide)⟩

theorem valGo_inl_shape (origs ts : List Tok) (tc : Str) (sp : Nat) :
    ∀ pairs : List (Tok × Tok), ∀ i : Nat, ∀ lo : Str, ∀ r : ValRes,
    valGo origs ts tc sp pairs i lo = Sum.inl r →
    ∃ j og tr lo2, r = mkMismatch origs ts tc lo2 sp j og tr := by
  intro pairs
  induction pairs with
  | nil =>
    intro i lo r h
    cases h
  | cons p rest ih =>
    intro i lo r h
    obtain ⟨og, tr⟩ := p
    simp only [valGo] at h
    split at h
    · exact ih _ _ _ h
    · split at h
      · injection h with h2
        exact ⟨i, og, tr, _, h2.symm⟩
      · exact ih _ _ _ h

/-- Claim C4 (amended): on every structural mismatch the raised error has
consumedRatio equal to min(1, (consumed - leftover)/increment + 0.05),
i.e. the 0.05 is added before the cap at 1, and hence the ratio never
exceeds 1 (matching the data-model statement that consumedRatio lies in
the unit interval). -/
theorem C4_ratio_capped : ∀ (origs : List Tok) (tc : Str) (sp : Nat) (lo : Str) (q : ℚ),
    ratioOf (validate_html_structure origs tc sp lo) = some q → q ≤ 1 := by
  intro origs tc sp lo q h
  simp only [validate_html_structure] at h
  split at h
  · rename_i r hv
    obtain ⟨j, og, tr, lo2, rfl⟩ := valGo_inl_shape _ _ _ _ _ _ _ _ hv
    unfold mkMismatch at h
    by_cases hz : tc.length = 0
    · rw [if_pos hz] at h
      cases h
    · rw [if_neg hz] at h
      simp only [ratioOf, Option.some.injEq] at h
      rw [← h]
      exact min_le_left _ _
  · split at h
    · cases h
    · split at h
      · cases h
      · split at h
        · cases h
        · cases h

theorem validate_unit_ratio_eval :
    ratioOf (validate_html_structure [⟨lchars ("x"), false⟩] (lchars ("<a>")) 0 []) = some 1 := by
  have hts : extract_html_structure ([] ++ lchars ("<a>")) = [⟨lchars ("<a>"), true⟩] := by decide
  simp only [validate_html_structure, hts]
  simp only [valGo, valLo2, mkMismatch, mismatchCheck, sumTokLens]
  norm_num [ratioOf, lchars]

/-- Claim C4 counterexample: skeleton [text token x], increment <a> with
empty leftover. The code computes min(1, (3-0)/3 + 0.05) = 1, while the
claimed formula min(1, (3-0)/3) + 0.05 equals 21/20, so the 0.05 is not
added after the cap. -/
theorem C4_counterexample :
    ratioOf (validate_html_structure [⟨lchars ("x"), false⟩] (lchars ("<a>")) 0 []) = some 1 ∧
    min (1 : ℚ) ((((3 : ℚ)) - 0) / 3) + 1/20 = 21/20 ∧
    ((1 : ℚ) : ℚ) ≠ min (1 : ℚ) ((((3 : ℚ)) - 0) / 3) + 1/20 := by
  refine ⟨validate_unit_ratio_eval, by norm_num, by norm_num⟩

/-- Witness for C4_ratio_capped at the concrete mismatch input. -/
theorem C4_witness :
    ratioOf (validate_html_structure [⟨lchars ("x"), false⟩] (lchars ("<a>")) 0 []) = some 1 ∧
    (1 : ℚ) ≤ 1 :=
  ⟨validate_unit_ratio_eval,
   C4_ratio_capped [⟨lchars ("x"), false⟩] (lchars ("<a>")) 0 [] 1 validate_unit_ratio_eval⟩

theorem pySliceList_length {α : Type} (l : List α) (a b : Nat) :
    (pySliceList l a b).length ≤ b - a := by
  simp only [pySliceList, List.length_drop, List.length_take]
  omega

theorem truncate50_length (s : Str) : (truncate_str s 50).length ≤ 103 := by
  have hdots : (lchars ("...")).length = 3 := by decide
  unfold truncate_str
  split
  · rename_i h
    simp only [List.length_append, List.length_take, List.length_drop, hdots]
    omega
  · rename_i h
    omega

theorem flatten_trunc_length (w : List Tok) :
    ((w.map (fun t => truncate_str t.text 50)).flatten).length ≤ w.length * 103 := by
  induction w with
  | nil => simp
  | cons t ts ih =>
    simp only [List.map_cons, List.flatten_cons, List.length_append, List.length_cons]
    have ht := truncate50_length t.text
    omega

/-- Claim C9 (amended): every raised structural mismatch carries two
diagnostic context windows, each built from at most the 4 tokens preceding
the mismatch plus the mismatching token (at most 5 tokens); each token
contributes its text truncated by truncate_str with budget 50, which keeps
up to 100 of its characters (the first and last 50 around an ellipsis when
longer than 100, the full text otherwise, up to 103 characters in all), so
each window is at most 515 characters long. -/
theorem C9_context_windows : ∀ (origs : List Tok) (tc : Str) (sp : Nat) (lo : Str) (c1 c2 : Str),
    origCtxOf (validate_html_structure origs tc sp lo) = some c1 →
    transCtxOf (validate_html_structure origs tc sp lo) = some c2 →
    ∃ j : Nat,
      c1 = ((pySliceList origs (sp + (j - 4)) (sp + j + 1)).map (fun t => truncate_str t.text 50)).flatten ∧
      c2 = ((pySliceList (extract_html_structure (lo ++ tc)) (j - 4) (j + 1)).map
              (fun t => truncate_str t.text 50)).flatten ∧
      (pySliceList origs (sp + (j - 4)) (sp + j + 1)).length ≤ 5 ∧
      (pySliceList (extract_html_structure (lo ++ tc)) (j - 4) (j + 1)).length ≤ 5 ∧
      c1.length ≤ 515 ∧ c2.length ≤ 515 := by
  intro origs tc sp lo c1 c2 h1 h2
  simp only [validate_html_structure] at h1 h2
  split at h1
  · rename_i r hv
    rw [hv] at h2
    simp only [] at h2
    obtain ⟨j, og, tr, lo2, rfl⟩ := valGo_inl_shape _ _ _ _ _ _ _ _ hv
    unfold mkMismatch at h1 h2
    by_cases hz : tc.length = 0
    · rw [if_pos hz] at h1
      cases h1
    · rw [if_neg hz] at h1 h2
      simp only [origCtxOf, transCtxOf, Option.some.injEq] at h1 h2
      refine ⟨j, h1.symm, h2.symm, ?_, ?_, ?_, ?_⟩
      · have := pySliceList_length origs (sp + (j - 4)) (sp + j + 1)
        omega
      · have := pySliceList_length (extract_html_structure (lo ++ tc)) (j - 4) (j + 1)
        omega
      · rw [← h1]
        have hw := pySliceList_length origs (sp + (j - 4)) (sp + j + 1)
        have hf := flatten_trunc_length (pySliceList origs (sp + (j - 4)) (sp + j + 1))
        have hw5 : (pySliceList origs (sp + (j - 4)) (sp + j + 1)).length ≤ 5 := by omega
        have : (pySliceList origs (sp + (j - 4)) (sp + j + 1)).length * 103 ≤ 515 := by omega
        omega
      · rw [← h2]
        have hw := pySliceList_length (extract_html_structure (lo ++ tc)) (j - 4) (j + 1)
        have hf := flatten_trunc_length (pySliceList (extract_html_structure (lo ++ tc)) (j - 4) (j + 1))
        have hw5 : (pySliceList (extract_html_structure (lo ++ tc)) (j - 4) (j + 1)).length ≤ 5 := by omega
        have : (pySliceList (extract_html_structure (lo ++ tc)) (j - 4) (j + 1)).length * 103 ≤ 515 := by
          omega
        omega
  · split at h1
    · cases h1
    · split at h1
      · cases h1
      · split at h1
        · cases h1
        · cases h1

/-- Claim C9 counterexample: a mismatch whose translated-side window is a
single token of 60 characters; truncate_str leaves it whole (its length is
at most 100), so that token contributes 60 > 50 characters of its text to
the window, refuting the 50-character-per-token bound. -/
theorem C9_counterexample :
    transTokOf (validate_html_structure [⟨lchars ("x"), false⟩] bigTag 0 []) =
      some ⟨bigTag, true⟩ ∧
    transCtxOf (validate_html_structure [⟨lchars ("x"), false⟩] bigTag 0 []) = some bigTag ∧
    truncate_str bigTag 50 = bigTag ∧
    bigTag.length = 60 ∧
    ¬(bigTag.length ≤ 50) := by
  refine ⟨by decide, by decide, by decide, by decide, by decide⟩

/-- Witness for C9_context_windows at a concrete mismatch. -/
theorem C9_witness :
    ∃ j : Nat,
      lchars ("x") = ((pySliceList [Tok.mk (lchars ("x")) false] (0 + (j - 4)) (0 + j + 1)).map
          (fun t => truncate_str t.text 50)).flatten ∧
      bigTag = ((pySliceList (extract_html_structure ([] ++ bigTag)) (j - 4) (j + 1)).map
          (fun t => truncate_str t.text 50)).flatten ∧
      (pySliceList [Tok.mk (lchars ("x")) false] (0 + (j - 4)) (0 + j + 1)).length ≤ 5 ∧
      (pySliceList (extract_html_structure ([] ++ bigTag)) (j - 4) (j + 1)).length ≤ 5 ∧
      (lchars ("x")).length ≤ 515 ∧ bigTag.length ≤ 515 :=
  C9_context_windows [Tok.mk (lchars ("x")) false] bigTag 0 [] (lchars ("x")) bigTag
    (by decide) (by decide)

/-- Claim C10 (amended): validate_html_structure is total only under unstated
preconditions. If leftover plus increment tokenizes to at least one token,
the start position is strictly below the skeleton length, and the new
increment is non-empty, the call returns a position-leftover pair or raises
the Structure Mismatch error (with an empty increment a detected mismatch
raises ZeroDivisionError instead, at the ratio division). If the
concatenation tokenizes to no token at all (empty or whitespace-only), the
epilogue indexes the empty token list and raises IndexError. If the start
position is at or past the skeleton length while at least one token was
produced, the comparison loop never runs and the final log statement hits
unbound variables, raising NameError. -/
theorem C10_totality :
    (∀ (origs : List Tok) (tc : Str) (sp : Nat) (lo : Str),
      extract_html_structure (lo ++ tc) ≠ [] → sp < origs.length → tc ≠ [] →
      (∃ p l2, validate_html_structure origs tc sp lo = ValRes.ok p l2) ∨
      (∃ e, validate_html_structure origs tc sp lo = ValRes.mismatch e)) ∧
    (∀ (origs : List Tok) (tc : Str) (sp : Nat) (lo : Str),
      extract_html_structure (lo ++ tc) = [] →
      validate_html_structure origs tc sp lo = ValRes.indexError) ∧
    (∀ (origs : List Tok) (tc : Str) (sp : Nat) (lo : Str),
      origs.length ≤ sp → extract_html_structure (lo ++ tc) ≠ [] →
      validate_html_structure origs tc sp lo = ValRes.nameError) := by
  refine ⟨?_, ?_, ?_⟩
  · intro origs tc sp lo hts hsp htc
    simp only [validate_html_structure]
    rcases hv : valGo origs (extract_html_structure (lo ++ tc)) tc sp
        ((origs.drop sp).zip (extract_html_structure (lo ++ tc))) 0 lo with r | lo2
    · simp only []
      right
      obtain ⟨j, og, tr, lo3, rfl⟩ := valGo_inl_shape _ _ _ _ _ _ _ _ hv
      unfold mkMismatch
      rw [if_neg (fun h0 => htc (List.length_eq_zero.1 h0))]
      exact ⟨_, rfl⟩
    · simp only []
      have hsome : (extract_html_structure (lo ++ tc)).getLast?.isSome = true :=
        List.getLast?_isSome.2 hts
      obtain ⟨lastT, hlast⟩ := Option.isSome_iff_exists.1 hsome
      rw [hlast]
      simp only []
      have hplen : ((origs.drop sp).zip (extract_html_structure (lo ++ tc))).length ≠ 0 := by
        rw [List.length_zip]
        have h1 : 0 < (origs.drop sp).length := by
          rw [List.length_drop]
          omega
        have h2 : 0 < (extract_html_structure (lo ++ tc)).length :=
          List.length_pos.2 hts
        simp only [lt_min_iff] at *
        omega
      rw [if_neg hplen]
      left
      by_cases hTag : lastT.isTag
      · exact ⟨_, _, by rw [if_pos hTag]⟩
      · exact ⟨_, _, by rw [if_neg hTag]⟩
  · intro origs tc sp lo hts
    simp only [validate_html_structure, hts, List.zip_nil_right]
    simp only [valGo]
    rfl
  · intro origs tc sp lo hsp hts
    have hdrop : origs.drop sp = [] := List.drop_eq_nil_of_le hsp
    simp only [validate_html_structure, hdrop, List.zip_nil_left]
    simp only [valGo]
    have hsome : (extract_html_structure (lo ++ tc)).getLast?.isSome = true :=
      List.getLast?_isSome.2 hts
    obtain ⟨lastT, hlast⟩ := Option.isSome_iff_exists.1 hsome
    rw [hlast]
    simp

/-- Claim C10 counterexample: with skeleton [text token x], an empty
increment and leftover "<a>", the concatenation tokenizes to one token and
the start position 0 is below the skeleton length 1, yet the call neither
returns nor raises the Structure Mismatch error: the mismatch path divides
by the zero length of the increment and raises ZeroDivisionError. -/
theorem C10_counterexample :
    validate_html_structure [⟨lchars ("x"), false⟩] [] 0 (lchars ("<a>")) =
      ValRes.zeroDivisionError ∧
    extract_html_structure ((lchars ("<a>")) ++ ([] : Str)) ≠ [] ∧
    (0 : Nat) < 1 := by
  refine ⟨by decide, by decide, by decide⟩

/-- Witness for C10_totality: all three clauses applied at concrete inputs. -/
theorem C10_witness :
    ((∃ p l2, validate_html_structure [⟨lchars ("<a>"), true⟩] (lchars ("<a>hi")) 0 [] =
        ValRes.ok p l2) ∨
      (∃ e, validate_html_structure [⟨lchars ("<a>"), true⟩] (lchars ("<a>hi")) 0 [] =
        ValRes.mismatch e)) ∧
    validate_html_structure [⟨lchars ("<a>"), true⟩] (lchars ("   ")) 0 [] = ValRes.indexError ∧
    validate_html_structure [⟨lchars ("<a>"), true⟩] (lchars (" x ")) 5 [] = ValRes.nameError :=
  ⟨C10_totality.1 [⟨lchars ("<a>"), true⟩] (lchars ("<a>hi")) 0 [] (by decide) (by decide) (by decide),
   C10_totality.2.1 [⟨lchars ("<a>"), true⟩] (lchars ("   ")) 0 [] (by decide),
   C10_totality.2.2 [⟨lchars ("<a>"), true⟩] (lchars (" x ")) 5 [] (by decide) (by decide)⟩

theorem chInner_eq : ∀ (ranges : List (Nat × Nat)) (i : Nat) (c : Char) (acc : List Nat),
    acc.length ≤ 15 →
    chInner i c ranges acc =
      ((acc ++ rangeHits ranges i c).take 16,
       decide (16 ≤ acc.length + (rangeHits ranges i c).length)) := by
  intro ranges i c
  induction ranges with
  | nil =>
    intro acc hacc
    simp only [chInner, rangeHits, List.filter_nil, List.map_nil, List.append_nil,
      List.length_nil, Nat.add_zero]
    rw [List.take_of_length_le (by omega)]
    refine Prod.ext rfl ?_
    show false = decide (16 ≤ acc.length)
    exact (decide_eq_false (by omega)).symm
  | cons r rest ih =>
    intro acc hacc
    cases hr : inRange r c with
    | false =>
      have hhits : rangeHits (r :: rest) i c = rangeHits rest i c := by
        simp [rangeHits, List.filter_cons, hr]
      simp only [chInner, hr]
      rw [ih acc hacc, hhits]
    | true =>
      have hhits : rangeHits (r :: rest) i c = i :: rangeHits rest i c := by
        simp [rangeHits, List.filter_cons, hr]
      simp only [chInner, hr]
      rw [hhits]
      have hsplit : acc ++ i :: rangeHits rest i c = (acc ++ [i]) ++ rangeHits rest i c := by
        simp
      by_cases hful : 15 < (acc ++ [i]).length
      · rw [if_pos hful]
        have h16 : (acc ++ [i]).length = 16 := by
          simp only [List.length_append, List.length_cons, List.length_nil] at hful ⊢
          omega
        rw [hsplit, List.take_append_of_le_length (by omega), List.take_of_length_le (by omega)]
        refine Prod.ext rfl ?_
        show true = decide (16 ≤ acc.length + (i :: rangeHits rest i c).length)
        have : 16 ≤ acc.length + (i :: rangeHits rest i c).length := by
          simp only [List.length_append, List.length_cons, List.length_nil] at h16
          simp only [List.length_cons]
          omega
        exact (decide_eq_true this).symm
      · rw [if_neg hful]
        have hacc2 : (acc ++ [i]).length ≤ 15 := by
          simp only [List.length_append, List.length_cons, List.length_nil] at hful ⊢
          omega
        rw [ih (acc ++ [i]) hacc2, hsplit]
        refine Prod.ext rfl ?_
        show decide (16 ≤ (acc ++ [i]).length + (rangeHits rest i c).length) =
          decide (16 ≤ acc.length + (i :: rangeHits rest i c).length)
        have harith : (acc ++ [i]).length + (rangeHits rest i c).length =
            acc.length + (i :: rangeHits rest i c).length := by
          simp only [List.length_append, List.length_cons, List.length_nil]
          omega
        rw [harith]

theorem chOuter_eq : ∀ (pairs : List (Nat × Char)) (ranges : List (Nat × Nat)) (acc : List Nat),
    acc.length ≤ 15 →
    chOuter ranges pairs acc =
      (acc ++ ((pairs.map (fun p => rangeHits ranges p.1 p.2)).flatten)).take 16 := by
  intro pairs
  induction pairs with
  | nil =>
    intro ranges acc hacc
    simp only [chOuter, List.map_nil, List.flatten_nil, List.append_nil]
    rw [List.take_of_length_le (by omega)]
  | cons p rest ih =>
    intro ranges acc hacc
    simp only [chOuter, List.map_cons, List.flatten_cons]
    rw [chInner_eq ranges p.1 p.2 acc hacc]
    have hassoc : acc ++ (rangeHits ranges p.1 p.2 ++
        (rest.map (fun q => rangeHits ranges q.1 q.2)).flatten) =
        (acc ++ rangeHits ranges p.1 p.2) ++
          (rest.map (fun q => rangeHits ranges q.1 q.2)).flatten := by
      simp
    by_cases hful : 16 ≤ acc.length + (rangeHits ranges p.1 p.2).length
    · have h16len : 16 ≤ (acc ++ rangeHits ranges p.1 p.2).length := by
        simp only [List.length_append]
        omega
      rw [decide_eq_true hful]
      simp only []
      conv_rhs => rw [hassoc, List.take_append_of_le_length h16len]
    · rw [decide_eq_false hful]
      simp only []
      have hshort : (acc ++ rangeHits ranges p.1 p.2).take 16 =
          acc ++ rangeHits ranges p.1 p.2 :=
        List.take_of_length_le (by simp only [List.length_append]; omega)
      rw [hshort, ih ranges (acc ++ rangeHits ranges p.1 p.2)
        (by simp only [List.length_append]; omega), hassoc]

theorem mem_flat_hits_ge : ∀ (cs : Str) (k : Nat) (ranges : List (Nat × Nat)) (x : Nat),
    x ∈ ((List.enumFrom k cs).map (fun p => rangeHits ranges p.1 p.2)).flatten → k ≤ x := by
  intro cs
  induction cs with
  | nil => simp
  | cons c rest ih =>
    intro k ranges x hx
    simp only [List.enumFrom, List.map_cons, List.flatten_cons, List.mem_append] at hx
    rcases hx with hx | hx
    · simp only [rangeHits, List.mem_map] at hx
      obtain ⟨r, _, rfl⟩ := hx
      exact Nat.le_refl k
    · exact Nat.le_trans (Nat.le_succ k) (ih (k+1) ranges x hx)

theorem pairwise_const_le (k : Nat) (l : List (Nat × Nat)) :
    List.Pairwise (fun a b => a ≤ b) (l.map (fun _ => k)) := by
  induction l with
  | nil => simp
  | cons r rest ih =>
    simp only [List.map_cons]
    refine List.Pairwise.cons ?_ ih
    intro b hb
    simp only [List.mem_map] at hb
    obtain ⟨r2, _, rfl⟩ := hb
    exact Nat.le_refl k

theorem flat_hits_pairwise : ∀ (cs : Str) (k : Nat) (ranges : List (Nat × Nat)),
    List.Pairwise (fun a b => a ≤ b)
      (((List.enumFrom k cs).map (fun p => rangeHits ranges p.1 p.2)).flatten) := by
  intro cs
  induction cs with
  | nil => simp
  | cons c rest ih =>
    intro k ranges
    simp only [List.enumFrom, List.map_cons, List.flatten_cons]
    rw [List.pairwise_append]
    refine ⟨?_, ih (k+1) ranges, ?_⟩
    · exact pairwise_const_le k _
    · intro a ha b hb
      have ha2 : a = k := by
        simp only [rangeHits, List.mem_map] at ha
        obtain ⟨r, _, rfl⟩ := ha
        rfl
      have hb2 : k + 1 ≤ b := mem_flat_hits_ge rest (k+1) ranges b hb
      omega

/-- Claim C8 (amended): for every range configuration and every text, the
leak detector returns the hit positions (one entry per matching range per
character, in non-decreasing order) truncated to the first 16 entries: the
early return only fires after the 16th match has been appended, so the cap
is 16, not 15; with at most 15 hits the returned list is exactly all hit
positions. -/
theorem C8_leak_positions : ∀ (ranges : List (Nat × Nat)) (text : Str),
    contains_hebrew ranges text = (hebrewPositions ranges text).take 16 ∧
    List.Pairwise (fun a b => a ≤ b) (hebrewPositions ranges text) := by
  intro ranges text
  constructor
  · unfold contains_hebrew hebrewPositions
    rw [chOuter_eq text.enum ranges [] (by simp)]
    simp
  · unfold hebrewPositions
    have henum : text.enum = List.enumFrom 0 text := rfl
    rw [henum]
    exact flat_hits_pairwise text 0 ranges

/-- Claim C8 counterexample: with a single 17-character text entirely inside
one configured range, contains_hebrew returns 16 positions: the early
return at src/utils.py line 58 fires only once the accumulator exceeds 15
entries, so the cap is 16 and the claim that it never returns more than 15
positions is false. -/
theorem C8_counterexample :
    (contains_hebrew [(97, 122)] (List.replicate 17 'a')).length = 16 ∧
    ¬ ((contains_hebrew [(97, 122)] (List.replicate 17 'a')).length ≤ 15) := by
  refine ⟨by decide, by decide⟩

/-- Claim C5 counterexample: a whitespace-separated text of exactly 200
words in which the word a occurs 25 times and every other word fewer than
20 times (below the threshold). The detector returns the empty list: a
single word repeated 25 times never trips the detector, because
src/utils.py line 36 requires more than two distinct words each repeated
at least 20 times. -/
theorem C5_counterexample :
    (repetitionWords (repText exWordsD) false).length = 200 ∧
    (repetitionWords (repText exWordsD) false).count (lchars ("a")) = 25 ∧
    abnormal_repetitions (repText exWordsD) false 200 = [] := by
  refine ⟨by decide, by decide, by decide⟩

/-- Claim C5 (amended): in the whitespace-separated (non-Asian) script the
per-word threshold is 20 occurrences, and a window is flagged only when
more than two distinct words reach it: a 200-word window with three or
more distinct words each repeated at least 20 times returns them all
(non-empty); windows with at most two such words - one word repeated 25
times, or repeated only 10 times - return the empty list. -/
theorem C5_repetition_behaviour :
    abnormal_repetitions (repText exWords3) false 200 =
      [lchars ("a"), lchars ("b"), lchars ("c"), lchars ("d")] ∧
    abnormal_repetitions (repText exWords1) false 200 = [] ∧
    abnormal_repetitions (repText exWords2) false 200 = [] := by
  refine ⟨by decide, by decide, by decide⟩

theorem pyTakeI_dropI (i : Int) (s : Str) : pyTakeI i s ++ pyDropI i s = s := by
  unfold pyTakeI pyDropI
  exact List.take_append_drop _ s

theorem sepPhase_conserve : ∀ (seps : List Str) (cur nxt : Str),
    (sepPhase seps cur nxt).1 ++ (sepPhase seps cur nxt).2 = cur ++ nxt := by
  intro seps
  induction seps with
  | nil => intro cur nxt; rfl
  | cons sep rest ih =>
    intro cur nxt
    simp only [sepPhase]
    split
    · simp only []
      rw [List.append_assoc, List.take_append_drop]
    · split
      · simp only []
        rw [← List.append_assoc, List.take_append_drop]
      · exact ih cur nxt

theorem tagGo_conserve : ∀ (toks : List Tok) (cur nxt : Str),
    (tagGo cur nxt toks).1 ++ (tagGo cur nxt toks).2 = cur ++ nxt := by
  intro toks
  induction toks with
  | nil => intro cur nxt; rfl
  | cons item rest ih =>
    intro cur nxt
    simp only [tagGo]
    split
    · rw [ih]
      rw [List.append_assoc, pyTakeI_dropI]
    · rfl

theorem adjustPair_conserve (seps : List Str) (cur nxt : Str) :
    (adjustPair seps cur nxt).1 ++ (adjustPair seps cur nxt).2 = cur ++ nxt := by
  unfold adjustPair
  rw [tagGo_conserve, sepPhase_conserve]

theorem map_set_comm {α β : Type} (f : α → β) :
    ∀ (l : List α) (n : Nat) (a : α), (l.set n a).map f = (l.map f).set n (f a) := by
  intro l
  induction l with
  | nil => intro n a; simp
  | cons x xs ih =>
    intro n a
    cases n with
    | zero => simp [List.set]
    | succ m => simp [List.set, ih]

theorem flatten_set_pair : ∀ (k : Nat) (ts : List Str) (x y : Str), k + 1 < ts.length →
    x ++ y = ts.getD k [] ++ ts.getD (k+1) [] →
    ((ts.set k x).set (k+1) y).flatten = ts.flatten := by
  intro k
  induction k with
  | zero =>
    intro ts x y hlen hcat
    match ts with
    | a :: b :: rest =>
      simp only [List.getD, List.get?, List.getElem?_cons_zero, List.getElem?_cons_succ,
        Option.getD_some] at hcat
      simp only [List.set]
      simp only [List.flatten_cons, ← List.append_assoc]
      rw [hcat]
  | succ m ih =>
    intro ts x y hlen hcat
    match ts with
    | a :: rest =>
      simp only [List.set]
      simp only [List.flatten_cons]
      have hlen2 : m + 1 < rest.length := by
        simp only [List.length_cons] at hlen
        omega
      have hcat2 : x ++ y = rest.getD m [] ++ rest.getD (m+1) [] := by
        simpa using hcat
      rw [ih rest x y hlen2 hcat2]

theorem set_pair_idx (cs : List Chunk) (k : Nat) (A B : Chunk) (hk1 : k + 1 < cs.length)
    (hidx : ∀ j, ∀ hj : j < cs.length, (cs[j]).idx = j) (hA : A.idx = k) (hB : B.idx = k + 1) :
    ∀ j, ∀ hj : j < ((cs.set k A).set (k+1) B).length, ((((cs.set k A).set (k+1) B))[j]).idx = j := by
  intro j hj
  have hj2 : j < cs.length := by simpa using hj
  rw [List.getElem_set]
  by_cases hjk1 : k + 1 = j
  · rw [if_pos hjk1]
    omega
  · rw [if_neg hjk1]
    rw [List.getElem_set]
    by_cases hjk : k = j
    · rw [if_pos hjk]
      omega
    · rw [if_neg hjk]
      exact hidx j hj2

theorem adjGo_conserve : ∀ (ks : List Nat) (cs : List Chunk) (seps : List Str),
    (∀ j, ∀ hj : j < cs.length, (cs[j]).idx = j) →
    (∀ k ∈ ks, k + 1 < cs.length) →
    ∃ out, adjGo seps ks cs = some out ∧
      joinChunks out = joinChunks cs ∧
      out.length = cs.length ∧
      (∀ j, ∀ hj : j < out.length, (out[j]).idx = j) := by
  intro ks
  induction ks with
  | nil =>
    intro cs seps hidx hks
    exact ⟨cs, rfl, rfl, rfl, hidx⟩
  | cons k ks ih =>
    intro cs seps hidx hks
    have hk1 : k + 1 < cs.length := hks k (List.mem_cons_self _ _)
    have hk : k < cs.length := by omega
    have hch : cs[k]? = some (cs[k]) := List.getElem?_eq_getElem hk
    have hidxk : (cs[k]).idx = k := hidx k hk
    have hnx : cs[k+1]? = some (cs[k+1]) := List.getElem?_eq_getElem hk1
    have hidxk1 : (cs[k+1]).idx = k + 1 := hidx (k+1) hk1
    simp only [adjGo, hch, hidxk, hnx, hidxk1]
    set A := Chunk.mk k (adjustPair seps (cs[k]).text (cs[k+1]).text).1 with hA
    set B := Chunk.mk (k+1) (adjustPair seps (cs[k]).text (cs[k+1]).text).2 with hB
    set cs2 := (cs.set k A).set (k+1) B with hcs2
    have hlen2 : cs2.length = cs.length := by
      rw [hcs2]
      simp
    have hidx2 : ∀ j, ∀ hj : j < cs2.length, (cs2[j]).idx = j :=
      set_pair_idx cs k A B hk1 hidx rfl rfl
    have hjoin2 : joinChunks cs2 = joinChunks cs := by
      rw [hcs2]
      unfold joinChunks
      rw [map_set_comm, map_set_comm]
      apply flatten_set_pair
      · simp only [List.length_map]
        omega
      · have hg1 : (cs.map Chunk.text).getD k [] = (cs[k]).text := by
          rw [List.getD_eq_getElem (cs.map Chunk.text) [] (by simp; omega)]
          simp
        have hg2 : (cs.map Chunk.text).getD (k+1) [] = (cs[k+1]).text := by
          rw [List.getD_eq_getElem (cs.map Chunk.text) [] (by simp; omega)]
          simp
        rw [hg1, hg2]
        exact adjustPair_conserve seps (cs[k]).text (cs[k+1]).text
    have hks2 : ∀ k2 ∈ ks, k2 + 1 < cs2.length := by
      intro k2 hk2
      rw [hlen2]
      exact hks k2 (List.mem_cons_of_mem _ hk2)
    obtain ⟨out, h1, h2, h3, h4⟩ := ih cs2 seps hidx2 hks2
    exact ⟨out, h1, by rw [h2, hjoin2], by rw [h3, hlen2], h4⟩

theorem take_take_drop (s : Str) (a b : Nat) (h : a ≤ b) :
    s.take a ++ (s.take b).drop a = s.take b := by
  conv_rhs => rw [← List.take_append_drop a (s.take b)]
  rw [List.take_take, min_eq_left h]

theorem join_slices : ∀ (n : Nat) (cs : Nat) (tc : Str),
    ((List.range n).map (fun i => (tc.take ((i+1) * cs)).drop (i * cs))).flatten =
      tc.take (n * cs) := by
  intro n
  induction n with
  | zero => simp
  | succ k ih =>
    intro cs tc
    rw [List.range_succ]
    simp only [List.map_append, List.map_cons, List.map_nil, List.flatten_append,
      List.flatten_cons, List.flatten_nil, List.append_nil]
    rw [ih]
    exact take_take_drop tc (k * cs) ((k+1) * cs) (Nat.mul_le_mul_right cs (Nat.le_succ k))

theorem chunksInit_join (tc : Str) (m : Nat) : joinChunks (chunksInit tc m) = tc := by
  unfold joinChunks chunksInit
  rw [List.map_map]
  have hcomp : (Chunk.text ∘ fun i => Chunk.mk i
      ((tc.take ((i+1) * (tc.length / (tc.length / m + 1) + 1))).drop
        (i * (tc.length / (tc.length / m + 1) + 1)))) =
      fun i => (tc.take ((i+1) * (tc.length / (tc.length / m + 1) + 1))).drop
        (i * (tc.length / (tc.length / m + 1) + 1)) := rfl
  rw [hcomp, join_slices]
  apply List.take_of_length_le
  have hpos : 0 < tc.length / m + 1 := Nat.succ_pos _
  set n := tc.length / m + 1 with hn
  set q := tc.length / n with hq0
  have h1 : n * q + tc.length % n = tc.length := Nat.div_add_mod tc.length n
  have h2 : tc.length % n < n := Nat.mod_lt _ hpos
  have h3 : tc.length < n * q + n :=
    calc tc.length = n * q + tc.length % n := h1.symm
      _ < n * q + n := Nat.add_lt_add_left h2 (n * q)
  rw [Nat.mul_succ]
  exact Nat.le_of_lt h3

theorem chunksInit_idx (tc : Str) (m : Nat) :
    ∀ j, ∀ hj : j < (chunksInit tc m).length, ((chunksInit tc m)[j]).idx = j := by
  intro j hj
  unfold chunksInit at hj ⊢
  simp only [List.length_map, List.length_range] at hj
  rw [List.getElem_map, List.getElem_range]

/-- Claim C3: chunk conservation. For every flattened document body, every
separator configuration and every positive chunk size bound, the
concatenation in order of all chunk texts equals the body both for the
initial even split of translate_html_file (src/translator.py lines
399-404) and after adjust_chunks returns (separator moves and leading-tag
pulls both splice text between adjacent chunks without loss). -/
theorem C3_chunk_conservation : ∀ (tc : Str) (seps : List Str) (maxSize : Nat), 0 < maxSize →
    joinChunks (chunksInit tc maxSize) = tc ∧
    ∃ out, adjust_chunks seps (chunksInit tc maxSize) = some out ∧ joinChunks out = tc := by
  intro tc seps m hm
  have hjoin := chunksInit_join tc m
  refine ⟨hjoin, ?_⟩
  have hidx := chunksInit_idx tc m
  have hks : ∀ k ∈ List.range ((chunksInit tc m).length - 1),
      k + 1 < (chunksInit tc m).length := by
    intro k hk
    rw [List.mem_range] at hk
    omega
  obtain ⟨out, h1, h2, h3, h4⟩ :=
    adjGo_conserve (List.range ((chunksInit tc m).length - 1)) (chunksInit tc m) seps hidx hks
  exact ⟨out, h1, by rw [h2, hjoin]⟩

/-- Witness for C3_chunk_conservation at a concrete body and separator. -/
theorem C3_witness :
    joinChunks (chunksInit (lchars ("ab. cd<e>f")) 4) = lchars ("ab. cd<e>f") ∧
    ∃ out, adjust_chunks [lchars (". ")] (chunksInit (lchars ("ab. cd<e>f")) 4) = some out ∧
      joinChunks out = lchars ("ab. cd<e>f") :=
  C3_chunk_conservation (lchars ("ab. cd<e>f")) [lchars (". ")] 4 (by decide)

/-- Claim C1 counterexample: replacing an existing checkpoint executes
rename-then-write-in-place, so after the first two operations (a reachable
crash point, and an instant a concurrent reader can observe) the
checkpoint path holds a half-written file, contradicting the claim that
the new state is written to a side file and only then renamed into place.
The write to the checkpoint path itself is the second operation of the
sequence. -/
theorem C1_counterexample :
    applyOps (fs0 ("old")) ((checkpointOps true ("new")).take 2) chkPath =
      FileState.halfWritten ∧
    (checkpointOps true ("new")).length = 3 ∧
    FsOp.beginWrite chkPath ∈ checkpointOps true ("new") := by
  refine ⟨by decide, by decide, by decide⟩

/-- Claim C1 (amended): the checkpoint replacement renames the previous
checkpoint to the .old path (retained, never deleted) and only then writes
the new state directly - in place - to the checkpoint path. A crash at any
prefix of the operation sequence never destroys the last good checkpoint:
it survives at the checkpoint path or at the .old path; after the full
sequence the old state is at .old and the new state at the checkpoint
path. A reader of the checkpoint path can, however, observe a
half-written checkpoint mid-write (see the counterexample). -/
theorem C1_checkpoint_crash_safety : ∀ (n : Nat) (oldData newData : String),
    (applyOps (fs0 oldData) ((checkpointOps true newData).take n) chkPath =
        FileState.full oldData ∨
      applyOps (fs0 oldData) ((checkpointOps true newData).take n) chkOldPath =
        FileState.full oldData) ∧
    applyOps (fs0 oldData) (checkpointOps true newData) chkOldPath = FileState.full oldData ∧
    applyOps (fs0 oldData) (checkpointOps true newData) chkPath = FileState.full newData := by
  intro n old new
  refine ⟨?_, ?_, ?_⟩
  · match n with
    | 0 =>
      left
      simp [applyOps, fs0]
    | 1 =>
      right
      simp [checkpointOps, applyOps, applyOp, fs0, chkPath, chkOldPath]
    | 2 =>
      right
      simp [checkpointOps, applyOps, applyOp, fs0, chkPath, chkOldPath]
    | (k+3) =>
      right
      rw [List.take_of_length_le (by simp [checkpointOps])]
      simp [checkpointOps, applyOps, applyOp, fs0, chkPath, chkOldPath]
  · simp [checkpointOps, applyOps, applyOp, fs0, chkPath, chkOldPath]
  · simp [checkpointOps, applyOps, applyOp, fs0, chkPath, chkOldPath]

/-- Claim C2, demonstrating the code bug at the failing input: a generator
that fails fatally (rate limited) on every call, with max_retries 10,
recovery mode on and prior progress. The api client wraps the fatal error
into RuntimeError !Stop!, so the isinstance test of translator.py lines
301-304 never fires (third conjunct: the wrapped error is merely retried,
whereas an unwrapped RateLimitError would be re-raised, fourth and fifth
conjuncts). The retry stalls the conversation, and the chunk returns a
degraded fragment after a single generator call; the run then continues
with further files instead of aborting. -/
theorem C2_fatal_not_aborted :
    chunkAttempts (fun _ => GenOutcome.rateLimited) 10 true true = (ChunkOutcome.degradedC, 1) ∧
    websiteReaction ChunkOutcome.degradedC = RunReaction.continuesRun ∧
    handleChunkError (PyExc.runtimeErrorE ("!Stop!")) 0 10 true true ("") =
      HandlerAction.retry ("") ∧
    handleChunkError PyExc.rateLimitError 0 10 true true ("") =
      HandlerAction.raiseExc (PyExc.runtimeErrorE ("!Stop!")) ∧
    websiteReaction (ChunkOutcome.raisedC (PyExc.runtimeErrorE ("!Stop!"))) =
      RunReaction.abortsRun := by
  refine ⟨by decide, by decide, by decide, by decide, by decide⟩

/-- Claim C6 counterexample: a chunk needing two increments (the first
validated but not completing). The concrete trace shows the second
generator request is issued after the first validated increment with no
checkpoint-file write in between: the checkpoint is only written at chunk
completion. -/
theorem C6_counterexample :
    chunkEvTrace false [false, true] =
      [ChunkEv.apiCall, ChunkEv.validatedOk, ChunkEv.partialWrite, ChunkEv.memUpdate,
       ChunkEv.apiCall, ChunkEv.validatedOk, ChunkEv.partialWrite, ChunkEv.memUpdate,
       ChunkEv.jsonWrite, ChunkEv.chunkReturn] ∧
    checkpointClaimViolated (chunkEvTrace false [false, true]) = true := by
  refine ⟨by decide, by decide⟩

/-- Claim C6 (amended): after every successfully validated increment the
state machine updates only the in-memory checkpoint record (and appends
the raw increment to the separate partial-output file); the per-document
checkpoint file is written only when the chunk completes. A run of n
non-completing validated increments performs no checkpoint-file write at
all, and a run ending in a completing increment writes it exactly once,
while the partial-output file receives one append per increment. -/
theorem C6_checkpoint_on_completion_only : ∀ (n : Nat) (hadJson : Bool),
    ChunkEv.jsonWrite ∉ chunkEvTrace hadJson (List.replicate n false) ∧
    (chunkEvTrace hadJson (List.replicate n false ++ [true])).count ChunkEv.jsonWrite = 1 ∧
    (chunkEvTrace hadJson (List.replicate n false ++ [true])).count ChunkEv.partialWrite =
      n + 1 := by
  intro n hadJson
  induction n with
  | zero =>
    cases hadJson
    · exact ⟨by decide, by decide, by decide⟩
    · exact ⟨by decide, by decide, by decide⟩
  | succ m ih =>
    obtain ⟨ih1, ih2, ih3⟩ := ih
    have hstep : ∀ rest : List Bool, chunkEvTrace hadJson (false :: rest) =
        [ChunkEv.apiCall, ChunkEv.validatedOk, ChunkEv.partialWrite, ChunkEv.memUpdate] ++
          chunkEvTrace hadJson rest := by
      intro rest
      simp [chunkEvTrace, iterEvents]
    refine ⟨?_, ?_, ?_⟩
    · rw [List.replicate_succ, hstep]
      simp only [List.mem_append]
      rintro (h | h)
      · simp at h
      · exact ih1 h
    · rw [List.replicate_succ, List.cons_append, hstep]
      simp only [List.count_append]
      rw [ih2]
      have hc : List.count ChunkEv.jsonWrite
          [ChunkEv.apiCall, ChunkEv.validatedOk, ChunkEv.partialWrite, ChunkEv.memUpdate] = 0 := by
        decide
      omega
    · rw [List.replicate_succ, List.cons_append, hstep]
      simp only [List.count_append]
      rw [ih3]
      have hc : List.count ChunkEv.partialWrite
          [ChunkEv.apiCall, ChunkEv.validatedOk, ChunkEv.partialWrite, ChunkEv.memUpdate] = 1 := by
        decide
      omega
